import Mathlib

/-!
Shallow embedding of `src/import-xml-into-mdb.py`.

The program streams a large XML file; for each end-of-element event fired for
the repeating tag it checks the full ancestor path
(`is_matching_repeating_element`), recursively translates the branch into a
nested document (`recurse_element_descending`), batches the translated
documents and bulk-inserts each batch into a MongoDB collection
(`insert_array_elements_into_db`).

Modelling choices:
* an XML element is a tree `Element`: tag, attributes in document order,
  direct text (the empty string stands for Python `None`), children in
  document order;
* a Python value assembled by the translation (str / list / dict) is a
  `JValue`; Python dicts preserve insertion order, so a dict is an
  association list with distinct keys in insertion order;
* the elements fired by `etree.iterparse` are given as a list of
  `StreamElem`; each carries the element subtree and the tags of its
  ancestors (parent upward), which is what `getparent()` walks;
* `coll.insert_many` calls are recorded as a trace (`LoopState.inserts`),
  and `elem.clear()` calls as a per-fired-element flag list
  (`LoopState.cleared`);
* `sys.exit` on a bad repeating path aborts the run before any stream
  processing; this is an `Except.error` (in the source the abort in fact
  happens through an uncaught `NameError`, since `sys` is never imported,
  but either way the process dies before `run` is called).
-/

def MDB_BATCH_INSERT_SIZE : Nat := 1000

def INSERT_COUNT_STATUS_THRESHOLD : Nat := 100000

/-- Source constant `VALUE_FIELD_PREFIX = 'val'` (renamed here). -/
def VALUE_FIELD_NAME : String := "val"

/-- An XML element subtree (lxml `Element`), as used by the translation:
`elem.tag`, `elem.items()` (attribute pairs), `elem.text` (empty string for
`None`), `elem.getchildren()`. -/
inductive Element where
  | mk (tag : String) (attrs : List (String × String)) (text : String)
      (children : List Element)

def Element.tag : Element → String
  | .mk t _ _ _ => t

def Element.attrs : Element → List (String × String)
  | .mk _ a _ _ => a

def Element.text : Element → String
  | .mk _ _ tx _ => tx

def Element.children : Element → List Element
  | .mk _ _ _ cs => cs

/-- Python truthiness of `s.strip()` being falsy: the string has only
whitespace (or is empty).  `elem.text and elem.text.strip()` is truthy
exactly when this is false (a `None` text is modelled by `""`). -/
def text_is_blank (s : String) : Bool := s.data.all Char.isWhitespace

/-- A Python value produced by `recurse_element_descending`: a string, a list
of values, or a dict (insertion-ordered association list). -/
inductive JValue where
  | s (v : String)
  | arr (items : List JValue)
  | obj (fields : List (String × JValue))

/-- Python truthiness of the values that occur in the translation: a string
is truthy iff non-empty, a list / dict iff non-empty. -/
def jtruthy : JValue → Bool
  | .s v => !(v == "")
  | .arr items => !items.isEmpty
  | .obj fields => !fields.isEmpty

/-- Python `type(record_dict) is dict`. -/
def isDict : JValue → Bool
  | .obj _ => true
  | _ => false

/-- Fields of a dict value (empty for the other shapes). -/
def jfields : JValue → List (String × JValue)
  | .obj fields => fields
  | _ => []

/-- Python `key in record_dict` on the dict model. -/
def hasKey (record_dict : List (String × JValue)) (key : String) : Bool :=
  record_dict.any (fun p => p.1 == key)

/-- Python `f'_{keyfield}'`: prepend one underscore. -/
def underscored (key : String) : String := "_" ++ key

/-- The `while keyfield in record_dict: keyfield = f'_{keyfield}'` loop of
`set_unique_key_val_if_exists`.  The loop always terminates because each
retry lengthens the candidate, and a dict with `n` entries cannot contain
`n + 1` distinct keys; `record_dict.length + 1` rounds of fuel therefore
always suffice (proved below). -/
def uniqueKeyAux : Nat → List (String × JValue) → String → String
  | 0, _, keyfield => keyfield
  | fuel + 1, record_dict, keyfield =>
    if hasKey record_dict keyfield then
      uniqueKeyAux fuel record_dict (underscored keyfield)
    else keyfield

def uniqueKey (record_dict : List (String × JValue)) (key : String) : String :=
  uniqueKeyAux (record_dict.length + 1) record_dict key

/-- Source `set_unique_key_val_if_exists(record_dict, key, value)`: if `key`
and `value` are truthy, store `value` under the first underscore-prefixed
variant of `key` that is not yet a key of the dict (Python mutates the dict;
here the updated dict is returned). -/
def set_unique_key_val_if_exists (record_dict : List (String × JValue))
    (key value : String) : List (String × JValue) :=
  if key ≠ "" ∧ value ≠ "" then
    record_dict ++ [(uniqueKey record_dict key, JValue.s value)]
  else record_dict

/-- Python `result[tag].append(child)`; only ever reached on a list value
(child entries are always lists), so the other shapes are left unchanged. -/
def jarrAppend : JValue → JValue → JValue
  | .arr items, child => .arr (items ++ [child])
  | v, _ => v

/-- The child-insertion step of `recurse_element_descending`:
`result[tag] = [child]` when the key is new, else
`result[tag].append(child)`. -/
def add_child (result : List (String × JValue)) (tag : String)
    (child : JValue) : List (String × JValue) :=
  if hasKey result tag then
    result.map (fun p => if p.1 == tag then (p.1, jarrAppend p.2 child) else p)
  else result ++ [(tag, JValue.arr [child])]

mutual

/-- Source `recurse_element_descending(elem, ignore_list, depth)`: translate
the child elements (in document order), then the attributes, then the direct
text; an element with truthy text and an otherwise empty result degenerates
to the bare text string. -/
def recurse_element_descending (elem : Element) (ignore_list : List String)
    (depth : Nat) : JValue :=
  match elem with
  | .mk _ attrs text children =>
    let result := process_children children ignore_list depth []
    let result := attrs.foldl
      (fun r p => set_unique_key_val_if_exists r p.1 p.2) result
    if text_is_blank text then .obj result
    else if result.isEmpty then .s text
    else .obj (set_unique_key_val_if_exists result VALUE_FIELD_NAME text)
termination_by structural elem

/-- The `for child_elem in elem.getchildren()` loop of
`recurse_element_descending`, with `result` as the accumulated dict: the
translated child is kept when it is truthy and (`depth > 1` or its tag is
not ignored). -/
def process_children (children : List Element) (ignore_list : List String)
    (depth : Nat) (result0 : List (String × JValue)) :
    List (String × JValue) :=
  match children with
  | [] => result0
  | child_elem :: rest =>
    let child := recurse_element_descending child_elem ignore_list (depth + 1)
    let result :=
      if jtruthy child && (decide (1 < depth) ||
          !(ignore_list.contains child_elem.tag)) then
        add_child result0 child_elem.tag child
      else result0
    process_children rest ignore_list depth result
termination_by structural children

end

/-- The loop body of source `is_matching_repeating_element`: walk the
reversed axis path against the chain of tags from the element upward; the
`None` parent is the exhausted list, and after the loop no ancestor may
remain. -/
def matchWalk : List String → List String → Bool
  | [], lineage => lineage.isEmpty
  | _ :: _, [] => false
  | section_ :: rest, tag :: up =>
    if section_ == tag then matchWalk rest up else false

/-- Source `is_matching_repeating_element(axis_path, elem)`, with the element
represented by its upward tag chain (own tag first, then the tags seen by
repeated `getparent()`). -/
def is_matching_repeating_element (axis_path lineage : List String) : Bool :=
  matchWalk axis_path.reverse lineage

/-- An element fired by `etree.iterparse(..., events=('end',), tag=...)`:
the subtree handed to the loop body, plus the tags of its ancestors (parent
first, then grandparent, ...), which is the chain `getparent()` walks. -/
structure StreamElem where
  tree : Element
  ancestors : List String

/-- The upward tag chain starting at the element itself, as walked by
`is_matching_repeating_element`. -/
def StreamElem.lineage (e : StreamElem) : List String :=
  e.tree.tag :: e.ancestors

/-- State of the loop in `insert_array_elements_into_db`, extended with the
observable traces: `inserts` records every `coll.insert_many` call (one list
of documents per call, in order), `cleared` records, per fired element,
whether `elem.clear()` was executed for it. -/
structure LoopState where
  count : Nat
  records_batch : List JValue
  inserts : List (List JValue)
  cleared : List Bool

/-- The body of the `for event, elem in context` loop of
`insert_array_elements_into_db`, for one fired element, with batch size `B`
(`MDB_BATCH_INSERT_SIZE` in the source).  The status `print` has no effect
on the state and is omitted. -/
def process_elem (B : Nat) (axis_path ignore_list : List String)
    (st : LoopState) (e : StreamElem) : LoopState :=
  if is_matching_repeating_element axis_path e.lineage then
    let record0 := recurse_element_descending e.tree ignore_list 1
    if jtruthy record0 then
      let record_dict :=
        if isDict record0 then record0 else JValue.obj [("val", record0)]
      let records_batch := st.records_batch ++ [record_dict]
      let flush := st.count % B == 0
      let inserts :=
        if flush then st.inserts ++ [records_batch] else st.inserts
      let records_batch := if flush then [] else records_batch
      { count := st.count + 1, records_batch := records_batch,
        inserts := inserts, cleared := st.cleared ++ [true] }
    else { st with cleared := st.cleared ++ [false] }
  else { st with cleared := st.cleared ++ [false] }

/-- Source `insert_array_elements_into_db`: run the loop over every fired
element, then flush the final partial batch when it is non-empty. -/
def insert_array_elements_into_db (B : Nat)
    (axis_path ignore_list : List String) (stream : List StreamElem) :
    LoopState :=
  let st := stream.foldl (process_elem B axis_path ignore_list)
    ⟨0, [], [], []⟩
  if st.records_batch.isEmpty then st
  else { st with
    inserts := st.inserts ++ [st.records_batch]
    records_batch := [] }

/-- Python `itm.strip()` on a path segment: drop whitespace on both ends. -/
def pyStrip (s : String) : String :=
  ⟨((s.data.dropWhile Char.isWhitespace).reverse.dropWhile
    Char.isWhitespace).reverse⟩

/-- Python `str.split('/')` on the character list. -/
def splitSlashAux : List Char → List Char → List (List Char)
  | [], acc => [acc.reverse]
  | c :: rest, acc =>
    if c = '/' then acc.reverse :: splitSlashAux rest []
    else splitSlashAux rest (c :: acc)

/-- Source `axis_path = [itm.strip() for itm in args.repeatingpath.split('/')]`. -/
def axisPathOf (repeatingpath : String) : List String :=
  (splitSlashAux repeatingpath.data []).map (fun cs => pyStrip ⟨cs⟩)

/-- The abort message of the `len(axis_path) < 2` guard in `main`. -/
def configErrorMsg : String :=
  "repeatingpath must contain at least two elements separated by a slash"

/-- Model of `main` followed by `run`: split and strip the repeating path;
if it has fewer than two segments the process dies before `run` is invoked
(in the source through `sys.exit`, which in fact raises an uncaught
`NameError` because `sys` is never imported - either way no XML parsing and
no database call happens); otherwise the stream is processed. -/
def mainRun (repeatingpath : String) (ignore_list : List String) (B : Nat)
    (stream : List StreamElem) : Except String LoopState :=
  let axis_path := axisPathOf repeatingpath
  if axis_path.length < 2 then .error configErrorMsg
  else .ok (insert_array_elements_into_db B axis_path ignore_list stream)

/-- Specification-side view of the per-branch document construction in the
loop body (lines building `record_dict`): the translation of the branch at
depth 1, promoted to `{'val': ...}` when it is not a dict, or `none`
when the translation is falsy and the branch is skipped. -/
def branch_record (e : Element) (ignore_list : List String) :
    Option JValue :=
  let record0 := recurse_element_descending e ignore_list 1
  if jtruthy record0 then
    some (if isDict record0 then record0 else JValue.obj [("val", record0)])
  else none

/-- Specification-side: whether a fired element is accepted by the pipeline
(matches the axis path and translates to a truthy value). -/
def elemAccepted (axis_path ignore_list : List String)
    (e : StreamElem) : Bool :=
  is_matching_repeating_element axis_path e.lineage &&
    jtruthy (recurse_element_descending e.tree ignore_list 1)

/-- Specification-side: the ordered sequence of documents the pipeline
accepts from the stream. -/
def acceptedDocs (axis_path ignore_list : List String)
    (stream : List StreamElem) : List JValue :=
  stream.filterMap (fun e =>
    if is_matching_repeating_element axis_path e.lineage then
      branch_record e.tree ignore_list
    else none)

/-- Ceiling division on naturals, used to state the batching claims. -/
def natCeilDiv (a b : Nat) : Nat := (a + b - 1) / b

/-- Invariant of the batching loop with batch size `B`: either nothing was
accepted yet, or `1 + k * B + r` documents were accepted (with `r < B`), the
insert trace consists of a first call of one document followed by `k` full
calls of `B` documents, and `r` documents are pending. -/
def BatchInv (B : Nat) (st : LoopState) : Prop :=
  (st.count = 0 ∧ st.inserts = [] ∧ st.records_batch = []) ∨
  (∃ k r, r + 1 ≤ B ∧ st.count = 1 + k * B + r ∧
    st.inserts.map List.length = 1 :: List.replicate k B ∧
    st.records_batch.length = r)

/-- Underscore-prefixed key variants tried by `set_unique_key_val_if_exists`:
`underscores n key` is `key` preceded by `n` underscores. -/
def underscores : Nat → String → String
  | 0, key => key
  | n + 1, key => underscored (underscores n key)

/-- Specification-side: the keep-condition of the child loop in
`recurse_element_descending` for one child at the given depth. -/
def child_kept (ignore_list : List String) (depth : Nat) (c : Element) :
    Bool :=
  jtruthy (recurse_element_descending c ignore_list (depth + 1)) &&
    (decide (1 < depth) || !(ignore_list.contains c.tag))

/-- Specification-side: the translations, in document order, of the children
with tag `k` that the child loop keeps. -/
def acceptedChildDocs (cs : List Element) (ignore_list : List String)
    (depth : Nat) (k : String) : List JValue :=
  cs.filterMap (fun c =>
    if c.tag == k && child_kept ignore_list depth c then
      some (recurse_element_descending c ignore_list (depth + 1))
    else none)

/-- Lookup in the association-list model of a Python dict. -/
def dictGet (d : List (String × JValue)) (k : String) : Option JValue :=
  match d.find? (fun p => p.1 == k) with
  | some p => some p.2
  | none => none

example : recurse_element_descending (.mk "name" [] "Bob" []) [] 2 =
    .s "Bob" := by rfl

example : recurse_element_descending
    (.mk "thing" [] "" [.mk "name" [] "Bob" [], .mk "type" [] "Monster" [],
      .mk "name" [] "Alice" []]) [] 1 =
    .obj [("name", .arr [.s "Bob", .s "Alice"]),
      ("type", .arr [.s "Monster"])] := by rfl

example : is_matching_repeating_element ["ROOT", "ITEMS", "ITEM"]
    ["ITEM", "ITEMS", "ROOT"] = true := by rfl

example :
    (insert_array_elements_into_db 1000 ["DATA", "ITEMS", "ITEM"] []
      [⟨.mk "ITEM" [] "" [.mk "name" [] "Bob" []], ["ITEMS", "DATA"]⟩]).inserts
    = [[.obj [("name", .arr [.s "Bob"])]]] := by rfl

example :
    (insert_array_elements_into_db 1000 ["DATA", "ITEMS", "ITEM"] []
      [⟨.mk "ITEM" [] "x" [], ["ITEMS", "DATA"]⟩,
       ⟨.mk "ITEM" [] "y" [], ["ITEMS", "DATA"]⟩]).inserts
    = [[.obj [("val", .s "x")]], [.obj [("val", .s "y")]]] := by rfl

example : mainRun "ITEM" [] 1000 [] = .error configErrorMsg := by rfl

example : (axisPathOf " DATA / ITEMS /ITEM").length = 3 := by rfl

theorem matchWalk_eq (p l : List String) : matchWalk p l = (l == p) := by
  induction p generalizing l with
  | nil => cases l <;> simp [matchWalk]
  | cons s sr ih =>
    cases l with
    | nil => simp [matchWalk]
    | cons t tr =>
      simp only [matchWalk, ih, List.cons_beq_cons]
      by_cases h : s = t
      · subst h
        simp
      · simp [h, Ne.symm h]

/-- C4: `is_matching_repeating_element` accepts an element exactly when its
upward tag chain equals the axis path read last segment to first with no
ancestor left above the configured root; in particular, for axis path
`ROOT/ITEMS/ITEM`, an `ITEM` under `ROOT/ITEMS` matches while an `ITEM`
under `OTHER/ITEMS` or with an extra ancestor above `ROOT` does not. -/
theorem C4_exact_path_anchoring :
    (∀ axis_path lineage : List String,
      is_matching_repeating_element axis_path lineage = true ↔
        lineage = axis_path.reverse) ∧
    is_matching_repeating_element ["ROOT", "ITEMS", "ITEM"]
      ["ITEM", "ITEMS", "ROOT"] = true ∧
    is_matching_repeating_element ["ROOT", "ITEMS", "ITEM"]
      ["ITEM", "ITEMS", "OTHER"] = false ∧
    is_matching_repeating_element ["ROOT", "ITEMS", "ITEM"]
      ["ITEM", "ITEMS", "ROOT", "EXTRA"] = false := by
  refine ⟨?_, by rfl, by rfl, by rfl⟩
  intro axis_path lineage
  rw [is_matching_repeating_element, matchWalk_eq]
  exact beq_iff_eq

/-- C3: when the configured axis path has fewer than two slash-separated
segments, the run aborts before any stream processing: `mainRun` returns an
error and never reaches `insert_array_elements_into_db`, so no element is
parsed and no insert call is made. -/
theorem C3_short_axis_path_aborts (repeatingpath : String)
    (ignore_list : List String) (B : Nat) (stream : List StreamElem)
    (h : (axisPathOf repeatingpath).length < 2) :
    mainRun repeatingpath ignore_list B stream =
      Except.error configErrorMsg := by
  unfold mainRun
  simp [h]

/-- Witness for C3 at the one-segment path `"ITEM"`. -/
theorem C3_witness :
    (axisPathOf "ITEM").length < 2 ∧
    mainRun "ITEM" [] 1000 [] = Except.error configErrorMsg :=
  ⟨by decide, C3_short_axis_path_aborts "ITEM" [] 1000 [] (by decide)⟩

theorem hasKey_iff (d : List (String × JValue)) (key : String) :
    hasKey d key = true ↔ key ∈ d.map Prod.fst := by
  simp only [hasKey, List.any_eq_true, beq_iff_eq, List.mem_map]

theorem underscores_shift (n : Nat) (key : String) :
    underscores n (underscored key) = underscores (n + 1) key := by
  induction n with
  | zero => rfl
  | succ n ih => simp [underscores, ih]

theorem underscores_length (n : Nat) (key : String) :
    (underscores n key).length = n + key.length := by
  induction n with
  | zero => simp [underscores]
  | succ n ih =>
    have h1 : ("_" : String).length = 1 := rfl
    show (underscored (underscores n key)).length = n + 1 + key.length
    rw [underscored, String.length_append, ih, h1]
    omega

theorem underscores_inj (key : String) :
    Function.Injective (fun n => underscores n key) := by
  intro a b hab
  have := congrArg String.length hab
  simp only [underscores_length] at this
  omega

theorem uniqueKeyAux_spec (fuel : Nat) :
    ∀ (d : List (String × JValue)) (key : String),
      (∃ j, j < fuel ∧ hasKey d (underscores j key) = false) →
      ∃ n, uniqueKeyAux fuel d key = underscores n key ∧
        hasKey d (underscores n key) = false ∧
        ∀ m < n, hasKey d (underscores m key) = true := by
  induction fuel with
  | zero =>
    rintro d key ⟨j, hj, -⟩
    omega
  | succ fuel ih =>
    rintro d key ⟨j, hj, hfree⟩
    by_cases h : hasKey d key = true
    · have hj0 : j ≠ 0 := by
        rintro rfl
        rw [show underscores 0 key = key from rfl] at hfree
        rw [h] at hfree
        cases hfree
      obtain ⟨j1, rfl⟩ : ∃ j1, j = j1 + 1 := ⟨j - 1, by omega⟩
      have hfree1 : hasKey d (underscores j1 (underscored key)) = false := by
        rw [underscores_shift]
        exact hfree
      obtain ⟨n1, heq, hfree2, hall⟩ :=
        ih d (underscored key) ⟨j1, by omega, hfree1⟩
      refine ⟨n1 + 1, ?_, ?_, ?_⟩
      · rw [uniqueKeyAux, if_pos h, heq, underscores_shift]
      · rw [← underscores_shift]
        exact hfree2
      · intro m hm
        match m with
        | 0 => exact h
        | m1 + 1 =>
          rw [← underscores_shift]
          exact hall m1 (by omega)
    · refine ⟨0, ?_, ?_, ?_⟩
      · rw [uniqueKeyAux, if_neg h]
        rfl
      · exact Bool.eq_false_iff.mpr h
      · intro m hm
        omega

theorem fresh_underscores_exists (d : List (String × JValue)) (key : String) :
    ∃ j, j ≤ d.length ∧ hasKey d (underscores j key) = false := by
  by_contra hcon
  push_neg at hcon
  have hall : ∀ j ≤ d.length, hasKey d (underscores j key) = true := by
    intro j hj
    have := hcon j hj
    cases hcase : hasKey d (underscores j key) with
    | false => exact absurd hcase this
    | true => rfl
  have hnodup : ((List.range (d.length + 1)).map
      (fun j => underscores j key)).Nodup :=
    (List.nodup_range _).map (underscores_inj key)
  have hsub : ((List.range (d.length + 1)).map
      (fun j => underscores j key)) ⊆ d.map Prod.fst := by
    intro x hx
    obtain ⟨j, hj, rfl⟩ := List.mem_map.mp hx
    exact (hasKey_iff d _).mp (hall j (by
      have := List.mem_range.mp hj
      omega))
  have hlen := (List.subperm_of_subset hnodup hsub).length_le
  simp only [List.length_map, List.length_range] at hlen
  omega

/-- C7: when `set_unique_key_val_if_exists` is called with non-empty key and
value, the value is stored under the first underscore-prefixed variant of
the key not yet present in the dict: the dict is extended at the end with
exactly one entry, its key is fresh (so no existing entry is overwritten),
and every shorter underscore variant was already taken. -/
theorem C7_collision_safe_keying (record_dict : List (String × JValue))
    (key value : String) (hk : key ≠ "") (hv : value ≠ "") :
    ∃ n, set_unique_key_val_if_exists record_dict key value =
        record_dict ++ [(underscores n key, JValue.s value)] ∧
      hasKey record_dict (underscores n key) = false ∧
      ∀ m < n, hasKey record_dict (underscores m key) = true := by
  obtain ⟨j, hj, hfree⟩ := fresh_underscores_exists record_dict key
  obtain ⟨n, heq, hfree2, hall⟩ :=
    uniqueKeyAux_spec (record_dict.length + 1) record_dict key
      ⟨j, by omega, hfree⟩
  refine ⟨n, ?_, hfree2, hall⟩
  rw [set_unique_key_val_if_exists, if_pos ⟨hk, hv⟩, uniqueKey, heq]

theorem depth_ignore_aux (n : Nat) :
    (∀ e : Element, sizeOf e ≤ n →
      ∀ (ignore_list : List String) (depth : Nat), 2 ≤ depth →
        recurse_element_descending e ignore_list depth =
          recurse_element_descending e [] depth) ∧
    (∀ cs : List Element, sizeOf cs ≤ n →
      ∀ (ignore_list : List String) (depth : Nat)
        (result0 : List (String × JValue)), 2 ≤ depth →
        process_children cs ignore_list depth result0 =
          process_children cs [] depth result0) := by
  induction n with
  | zero =>
    constructor
    · intro e he
      exfalso
      cases e with
      | mk t a tx cs =>
        simp only [Element.mk.sizeOf_spec] at he
        omega
    · intro cs hcs ignore_list depth result0 hd
      cases cs with
      | nil => rfl
      | cons c rest =>
        exfalso
        simp only [List.cons.sizeOf_spec] at hcs
        omega
  | succ n ih =>
    constructor
    · intro e he ignore_list depth hd
      cases e with
      | mk t a tx cs =>
        have hcs : sizeOf cs ≤ n := by
          simp only [Element.mk.sizeOf_spec] at he
          omega
        have h2 := ih.2 cs hcs ignore_list depth [] hd
        simp only [recurse_element_descending, h2]
    · intro cs hcs ignore_list depth result0 hd
      cases cs with
      | nil => rfl
      | cons c rest =>
        have hsz : sizeOf c ≤ n ∧ sizeOf rest ≤ n := by
          simp only [List.cons.sizeOf_spec] at hcs
          constructor <;> omega
        have hchild := ih.1 c hsz.1 ignore_list (depth + 1) (by omega)
        have hdec : decide (1 < depth) = true := decide_eq_true (by omega)
        simp only [process_children, hchild, hdec, Bool.true_or,
          Bool.and_true]
        exact ih.2 rest hsz.2 ignore_list depth _ hd

/-- C5: the ignore list only suppresses children at depth 1 (direct children
of the repeating element): at every depth greater than 1 the translation is
independent of the ignore list, and on the worked example with ignore set
containing "note", the top-level "note" child is dropped while the nested
"note" under "sub" survives. -/
theorem C5_depth_scoped_ignore :
    (∀ (e : Element) (ignore_list : List String) (depth : Nat), 2 ≤ depth →
      recurse_element_descending e ignore_list depth =
        recurse_element_descending e [] depth) ∧
    recurse_element_descending
      (.mk "item" [] "" [.mk "note" [] "A" [],
        .mk "sub" [] "" [.mk "note" [] "B" []]]) ["note"] 1 =
      .obj [("sub", .arr [.obj [("note", .arr [.s "B"])]])] := by
  constructor
  · intro e ignore_list depth hd
    exact (depth_ignore_aux (sizeOf e)).1 e (le_refl _) ignore_list depth hd
  · rfl

/-- Witness for C5: at depth 2 the ignore list containing "note" does not
suppress the "note" child. -/
theorem C5_witness :
    2 ≤ 2 ∧
    recurse_element_descending (.mk "sub" [] "" [.mk "note" [] "B" []])
        ["note"] 2 =
      recurse_element_descending (.mk "sub" [] "" [.mk "note" [] "B" []])
        [] 2 :=
  ⟨by decide,
    C5_depth_scoped_ignore.1 (.mk "sub" [] "" [.mk "note" [] "B" []])
      ["note"] 2 (by decide)⟩

theorem beq_empty_false_of_not_blank (text : String)
    (h : text_is_blank text = false) : (text == "") = false := by
  cases he : (text == "") with
  | false => rfl
  | true =>
    exfalso
    have : text = "" := beq_iff_eq.mp he
    subst this
    exact absurd h (by decide)

/-- C8: a leaf element with no attributes, no children and non-blank text
translates to the bare text value; the pipeline promotes that value to
`{'val': text}` exactly when it is the entire per-branch document
(`branch_record`); in a nested position the bare text stays inside the
parent's child array with no `val` wrapper. -/
theorem C8_leaf_degenerate_and_promotion :
    (∀ (tag text : String) (ignore_list : List String) (depth : Nat),
      text_is_blank text = false →
      recurse_element_descending (Element.mk tag [] text []) ignore_list
        depth = JValue.s text) ∧
    (∀ (tag text : String) (ignore_list : List String),
      text_is_blank text = false →
      branch_record (Element.mk tag [] text []) ignore_list =
        some (JValue.obj [("val", JValue.s text)])) ∧
    (∀ (ptag ctag text : String) (ignore_list : List String),
      text_is_blank text = false →
      ignore_list.contains ctag = false →
      recurse_element_descending
        (Element.mk ptag [] "" [Element.mk ctag [] text []]) ignore_list 1 =
        JValue.obj [(ctag, JValue.arr [JValue.s text])]) := by
  have leaf : ∀ (tag text : String) (ignore_list : List String)
      (depth : Nat), text_is_blank text = false →
      recurse_element_descending (Element.mk tag [] text []) ignore_list
        depth = JValue.s text := by
    intro tag text ignore_list depth h
    simp [recurse_element_descending, process_children, h]
  refine ⟨leaf, ?_, ?_⟩
  · intro tag text ignore_list h
    rw [branch_record, leaf tag text ignore_list 1 h]
    simp [jtruthy, isDict, beq_empty_false_of_not_blank text h]
  · intro ptag ctag text ignore_list h hig
    rw [recurse_element_descending]
    rw [show process_children [Element.mk ctag [] text []] ignore_list 1 [] =
        process_children []  ignore_list 1
          (if jtruthy (recurse_element_descending (Element.mk ctag [] text [])
              ignore_list 2) && (decide (1 < 1) ||
              !(ignore_list.contains (Element.mk ctag [] text []).tag)) then
            add_child [] (Element.mk ctag [] text []).tag
              (recurse_element_descending (Element.mk ctag [] text [])
                ignore_list 2)
          else []) from rfl]
    rw [leaf ctag text ignore_list 2 h]
    have hig2 : ctag ∉ ignore_list := by simpa using hig
    simp [jtruthy, beq_empty_false_of_not_blank text h, Element.tag, hig2,
      process_children, add_child, hasKey, text_is_blank]

/-- Witness for C7: the attribute key `"k"` collides with an existing field
`"k"`, and the value lands under the fresh key `"_k"`. -/
theorem C7_witness :
    ∃ n, set_unique_key_val_if_exists [("k", JValue.s "a")] "k" "b" =
        [("k", JValue.s "a")] ++ [(underscores n "k", JValue.s "b")] ∧
      hasKey [("k", JValue.s "a")] (underscores n "k") = false ∧
      ∀ m < n, hasKey [("k", JValue.s "a")] (underscores m "k") = true :=
  C7_collision_safe_keying [("k", JValue.s "a")] "k" "b"
    (by decide) (by decide)

/-- Witness for C8 at a concrete leaf element. -/
theorem C8_witness :
    text_is_blank "Bob" = false ∧
    recurse_element_descending (Element.mk "name" [] "Bob" []) [] 5 =
      JValue.s "Bob" ∧
    branch_record (Element.mk "name" [] "Bob" []) [] =
      some (JValue.obj [("val", JValue.s "Bob")]) ∧
    recurse_element_descending
      (Element.mk "item" [] "" [Element.mk "name" [] "Bob" []]) [] 1 =
      JValue.obj [("name", JValue.arr [JValue.s "Bob"])] :=
  ⟨by decide,
    C8_leaf_degenerate_and_promotion.1 "name" "Bob" [] 5 (by decide),
    C8_leaf_degenerate_and_promotion.2.1 "name" "Bob" [] (by decide),
    C8_leaf_degenerate_and_promotion.2.2 "item" "name" "Bob" []
      (by decide) (by decide)⟩

theorem find?_of_hasKey (d : List (String × JValue)) (k : String)
    (h : hasKey d k = true) :
    ∃ p, d.find? (fun q => q.1 == k) = some p ∧ p.1 = k := by
  induction d with
  | nil => simp [hasKey] at h
  | cons q rest ih =>
    cases hq : (q.1 == k) with
    | true =>
      refine ⟨q, ?_, beq_iff_eq.mp hq⟩
      simp [List.find?_cons, hq]
    | false =>
      have h2 : hasKey rest k = true := by
        simp only [hasKey, List.any_cons, hq, Bool.false_or] at h
        exact h
      obtain ⟨p, hp, hpk⟩ := ih h2
      exact ⟨p, by simp [List.find?_cons, hq, hp], hpk⟩

theorem find?_none_of_no_key (d : List (String × JValue)) (k : String)
    (h : hasKey d k = false) :
    d.find? (fun q => q.1 == k) = none := by
  rw [List.find?_eq_none]
  intro x hx hxk
  have hk : hasKey d k = true := by
    simp only [hasKey, List.any_eq_true]
    exact ⟨x, hx, hxk⟩
  rw [h] at hk
  cases hk

theorem add_child_get (acc : List (String × JValue)) (t : String)
    (child : JValue) (k : String) :
    dictGet (add_child acc t child) k =
      if k = t then
        (match dictGet acc t with
         | none => some (JValue.arr [child])
         | some v => some (jarrAppend v child))
      else dictGet acc k := by
  unfold add_child
  by_cases h : hasKey acc t = true
  · rw [if_pos h]
    have hpred : ((fun p : String × JValue => p.1 == k) ∘
        (fun p : String × JValue =>
          if p.1 == t then (p.1, jarrAppend p.2 child) else p)) =
        (fun p : String × JValue => p.1 == k) := by
      funext p
      by_cases hp : p.1 = t <;> simp [hp]
    rw [dictGet, List.find?_map, hpred]
    by_cases hk : k = t
    · subst hk
      rw [if_pos rfl]
      obtain ⟨p, hp, hpk⟩ := find?_of_hasKey acc k h
      rw [hp]
      have hptrue : (p.1 == k) = true := by
        rw [hpk]
        exact beq_self_eq_true k
      rw [dictGet, hp]
      simp [Option.map, hptrue]
    · rw [if_neg hk, dictGet]
      cases hf : acc.find? (fun p => p.1 == k) with
      | none => simp
      | some p =>
        have hfp :=
          @List.find?_some _ (fun q : String × JValue => q.1 == k) p acc hf
        have hpk : p.1 = k := beq_iff_eq.mp hfp
        have hpt : (p.1 == t) = false := by
          rw [hpk]
          exact beq_eq_false_iff_ne.mpr hk
        simp [Option.map, hpt]
  · have h0 : hasKey acc t = false := by simpa using h
    rw [if_neg h]
    by_cases hk : k = t
    · subst hk
      rw [if_pos rfl, dictGet, List.find?_append, find?_none_of_no_key acc k h0]
      rw [dictGet, find?_none_of_no_key acc k h0]
      simp [List.find?_cons]
    · rw [if_neg hk, dictGet, List.find?_append]
      have hsing : ([(t, JValue.arr [child])].find?
          (fun p => p.1 == k)) = none := by
        simp [List.find?_cons, beq_eq_false_iff_ne.mpr (Ne.symm hk)]
      rw [hsing, dictGet]
      cases acc.find? (fun p => p.1 == k) <;> simp

theorem add_child_keys (acc : List (String × JValue)) (t : String)
    (child : JValue) :
    (add_child acc t child).map Prod.fst =
      if hasKey acc t then acc.map Prod.fst
      else acc.map Prod.fst ++ [t] := by
  unfold add_child
  by_cases h : hasKey acc t = true
  · rw [if_pos h, if_pos h, List.map_map]
    congr 1
    funext p
    by_cases hp : p.1 = t <;> simp [hp]
  · rw [if_neg h, if_neg h]
    simp

theorem add_child_nodup (acc : List (String × JValue)) (t : String)
    (child : JValue) (h : (acc.map Prod.fst).Nodup) :
    ((add_child acc t child).map Prod.fst).Nodup := by
  rw [add_child_keys]
  by_cases hh : hasKey acc t = true
  · rw [if_pos hh]
    exact h
  · rw [if_neg hh]
    have h0 : hasKey acc t = false := by simpa using hh
    have hnot : t ∉ acc.map Prod.fst := by
      intro hm
      rw [(hasKey_iff acc t).mpr hm] at h0
      cases h0
    simp [List.nodup_append, h, hnot]

theorem mem_dictGet (d : List (String × JValue)) (k : String) (v : JValue)
    (hnd : (d.map Prod.fst).Nodup) (hmem : (k, v) ∈ d) :
    dictGet d k = some v := by
  induction d with
  | nil => cases hmem
  | cons q rest ih =>
    rw [List.map_cons, List.nodup_cons] at hnd
    cases List.mem_cons.mp hmem with
    | inl heq =>
      rw [← heq]
      simp [dictGet, List.find?_cons]
    | inr hrest =>
      have hkin : k ∈ rest.map Prod.fst :=
        List.mem_map.mpr ⟨(k, v), hrest, rfl⟩
      have hq : (q.1 == k) = false := by
        apply beq_eq_false_iff_ne.mpr
        intro hqk
        rw [hqk] at hnd
        exact hnd.1 hkin
      rw [dictGet, List.find?_cons, hq]
      exact ih hnd.2 hrest

theorem acceptedChildDocs_nil (ignore_list : List String) (depth : Nat)
    (k : String) : acceptedChildDocs [] ignore_list depth k = [] := rfl

theorem acceptedChildDocs_cons (c : Element) (rest : List Element)
    (ignore_list : List String) (depth : Nat) (k : String) :
    acceptedChildDocs (c :: rest) ignore_list depth k =
      (if c.tag == k && child_kept ignore_list depth c then
        recurse_element_descending c ignore_list (depth + 1) ::
          acceptedChildDocs rest ignore_list depth k
      else acceptedChildDocs rest ignore_list depth k) := by
  simp only [acceptedChildDocs, List.filterMap_cons]
  by_cases h : (c.tag == k && child_kept ignore_list depth c) = true <;>
    simp [h]

theorem process_children_cons (c : Element) (rest : List Element)
    (ignore_list : List String) (depth : Nat)
    (acc : List (String × JValue)) :
    process_children (c :: rest) ignore_list depth acc =
      process_children rest ignore_list depth
        (if child_kept ignore_list depth c then
          add_child acc c.tag
            (recurse_element_descending c ignore_list (depth + 1))
        else acc) := rfl

theorem process_children_spec (cs : List Element) :
    ∀ (ignore_list : List String) (depth : Nat)
      (acc : List (String × JValue)) (A0 : String → List JValue),
      (acc.map Prod.fst).Nodup →
      (∀ k, dictGet acc k =
        if (A0 k).isEmpty then none else some (JValue.arr (A0 k))) →
      ((process_children cs ignore_list depth acc).map Prod.fst).Nodup ∧
      (∀ k, dictGet (process_children cs ignore_list depth acc) k =
        if (A0 k ++ acceptedChildDocs cs ignore_list depth k).isEmpty
        then none
        else some (JValue.arr
          (A0 k ++ acceptedChildDocs cs ignore_list depth k))) := by
  induction cs with
  | nil =>
    intro ignore_list depth acc A0 hnd hget
    refine ⟨hnd, ?_⟩
    intro k
    simp only [process_children, acceptedChildDocs_nil, List.append_nil]
    exact hget k
  | cons c rest ih =>
    intro ignore_list depth acc A0 hnd hget
    rw [process_children_cons]
    by_cases hkept : child_kept ignore_list depth c = true
    · rw [if_pos hkept]
      set child := recurse_element_descending c ignore_list (depth + 1)
        with hchild
      obtain ⟨hnd2, hget2⟩ := ih ignore_list depth
        (add_child acc c.tag child)
        (Function.update A0 c.tag (A0 c.tag ++ [child]))
        (add_child_nodup acc c.tag child hnd)
        (by
          intro k
          rw [add_child_get]
          by_cases hk : k = c.tag
          · rw [if_pos hk, hk, Function.update_same, hget c.tag]
            by_cases hemp : (A0 c.tag).isEmpty = true
            · rw [if_pos hemp, List.isEmpty_iff.mp hemp]
              simp
            · rw [if_neg hemp]
              simp [jarrAppend, List.isEmpty_iff]
          · rw [if_neg hk, Function.update_noteq hk]
            exact hget k)
      refine ⟨hnd2, ?_⟩
      intro k
      rw [hget2 k]
      have hlist : Function.update A0 c.tag (A0 c.tag ++ [child]) k ++
          acceptedChildDocs rest ignore_list depth k =
          A0 k ++ acceptedChildDocs (c :: rest) ignore_list depth k := by
        rw [acceptedChildDocs_cons]
        by_cases hk : k = c.tag
        · rw [hk, Function.update_same]
          have htag : (c.tag == c.tag &&
              child_kept ignore_list depth c) = true := by
            rw [beq_self_eq_true, hkept]
            rfl
          rw [if_pos htag, ← hchild]
          simp
        · rw [Function.update_noteq hk]
          have htag : (c.tag == k &&
              child_kept ignore_list depth c) = false := by
            have hck : (c.tag == k) = false :=
              beq_eq_false_iff_ne.mpr (fun hc => hk hc.symm)
            rw [hck, Bool.false_and]
          simp [htag]
      rw [hlist]
    · have hkf : child_kept ignore_list depth c = false := by
        simpa using hkept
      rw [if_neg hkept]
      obtain ⟨hnd2, hget2⟩ := ih ignore_list depth acc A0 hnd hget
      refine ⟨hnd2, ?_⟩
      intro k
      rw [hget2 k]
      have hlist : acceptedChildDocs rest ignore_list depth k =
          acceptedChildDocs (c :: rest) ignore_list depth k := by
        rw [acceptedChildDocs_cons, hkf]
        simp
      rw [hlist]

theorem set_unique_extends (r : List (String × JValue)) (key value : String) :
    ∃ e1, set_unique_key_val_if_exists r key value = r ++ e1 ∧
      ∀ q ∈ e1, ∃ sv, q.2 = JValue.s sv := by
  unfold set_unique_key_val_if_exists
  by_cases h : key ≠ "" ∧ value ≠ ""
  · rw [if_pos h]
    refine ⟨[(uniqueKey r key, JValue.s value)], rfl, ?_⟩
    intro q hq
    rw [List.mem_singleton] at hq
    subst hq
    exact ⟨value, rfl⟩
  · rw [if_neg h]
    exact ⟨[], by simp, by simp⟩

theorem foldl_set_unique_extends (attrs : List (String × String)) :
    ∀ r : List (String × JValue),
      ∃ extra, attrs.foldl
        (fun d p => set_unique_key_val_if_exists d p.1 p.2) r = r ++ extra ∧
        ∀ q ∈ extra, ∃ sv, q.2 = JValue.s sv := by
  induction attrs with
  | nil =>
    intro r
    exact ⟨[], by simp, by simp⟩
  | cons a rest ih =>
    intro r
    rw [List.foldl_cons]
    obtain ⟨e1, he1, hs1⟩ := set_unique_extends r a.1 a.2
    rw [he1]
    obtain ⟨e2, he2, hs2⟩ := ih (r ++ e1)
    rw [he2, List.append_assoc]
    refine ⟨e1 ++ e2, rfl, ?_⟩
    intro q hq
    rcases List.mem_append.mp hq with h | h
    · exact hs1 q h
    · exact hs2 q h

/-- C6: every entry of a translated mapping is either the full ordered list
(`JValue.arr`) of the kept translated children of its tag, in document
order - never a bare scalar or bare mapping, even when exactly one child of
that tag occurred - or a plain string coming from an attribute or the text
field. -/
theorem C6_always_array_law (e : Element) (ignore_list : List String)
    (depth : Nat) (k : String) (v : JValue)
    (hmem : (k, v) ∈ jfields
      (recurse_element_descending e ignore_list depth)) :
    (v = JValue.arr (acceptedChildDocs e.children ignore_list depth k) ∧
      acceptedChildDocs e.children ignore_list depth k ≠ []) ∨
    (∃ sv, v = JValue.s sv) := by
  cases e with
  | mk t attrs tx cs =>
    simp only [Element.children]
    obtain ⟨hnd0, hget0⟩ := process_children_spec cs ignore_list depth []
      (fun _ => []) (by simp) (by intro k2; simp [dictGet])
    have hget1 : ∀ k2,
        dictGet (process_children cs ignore_list depth []) k2 =
        if (acceptedChildDocs cs ignore_list depth k2).isEmpty then none
        else some (JValue.arr (acceptedChildDocs cs ignore_list depth k2)) :=
      fun k2 => by simpa using hget0 k2
    obtain ⟨extra, hex, hsx⟩ := foldl_set_unique_extends attrs
      (process_children cs ignore_list depth [])
    have hsplit : ∃ E, jfields
        (recurse_element_descending (Element.mk t attrs tx cs) ignore_list
          depth) = process_children cs ignore_list depth [] ++ E ∧
        ∀ q ∈ E, ∃ sv, q.2 = JValue.s sv := by
      rw [recurse_element_descending]
      simp only [hex]
      by_cases hb : text_is_blank tx = true
      · rw [if_pos hb]
        exact ⟨extra, rfl, hsx⟩
      · rw [if_neg hb]
        by_cases hempty : (process_children cs ignore_list depth [] ++
            extra).isEmpty = true
        · rw [if_pos hempty]
          have h0 : process_children cs ignore_list depth [] ++ extra = [] :=
            List.isEmpty_iff.mp hempty
          have h1 : process_children cs ignore_list depth [] = [] :=
            (List.append_eq_nil.mp h0).1
          have h2 : extra = [] := (List.append_eq_nil.mp h0).2
          refine ⟨[], ?_, by simp⟩
          rw [h1]
          rfl
        · rw [if_neg hempty]
          obtain ⟨e2, he2, hs2⟩ := set_unique_extends
            (process_children cs ignore_list depth [] ++ extra)
            VALUE_FIELD_NAME tx
          rw [show jfields (JValue.obj (set_unique_key_val_if_exists
              (process_children cs ignore_list depth [] ++ extra)
              VALUE_FIELD_NAME tx)) = set_unique_key_val_if_exists
              (process_children cs ignore_list depth [] ++ extra)
              VALUE_FIELD_NAME tx from rfl, he2, List.append_assoc]
          refine ⟨extra ++ e2, rfl, ?_⟩
          intro q hq
          rcases List.mem_append.mp hq with h | h
          · exact hsx q h
          · exact hs2 q h
    obtain ⟨E, hE, hEs⟩ := hsplit
    rw [hE] at hmem
    rcases List.mem_append.mp hmem with hin | hin
    · left
      have hdget := mem_dictGet _ k v hnd0 hin
      rw [hget1 k] at hdget
      by_cases hemp : (acceptedChildDocs cs ignore_list depth k).isEmpty
        = true
      · rw [if_pos hemp] at hdget
        cases hdget
      · rw [if_neg hemp] at hdget
        refine ⟨(Option.some_inj.mp hdget).symm, ?_⟩
        intro hc
        exact hemp (by simp [hc])
    · right
      obtain ⟨sv, hsv⟩ := hEs (k, v) hin
      exact ⟨sv, hsv⟩

/-- Witness for C6 on a concrete element: the single-child entry is the
array of its kept translated children. -/
theorem C6_witness :
    (JValue.arr [JValue.s "Bob"] = JValue.arr (acceptedChildDocs
        (Element.mk "item" [] "" [Element.mk "name" [] "Bob" []]).children
        [] 1 "name") ∧
      acceptedChildDocs
        (Element.mk "item" [] "" [Element.mk "name" [] "Bob" []]).children
        [] 1 "name" ≠ []) ∨
    (∃ sv, JValue.arr [JValue.s "Bob"] = JValue.s sv) :=
  C6_always_array_law
    (Element.mk "item" [] "" [Element.mk "name" [] "Bob" []]) [] 1 "name"
    (JValue.arr [JValue.s "Bob"])
    (by
      show ("name", JValue.arr [JValue.s "Bob"]) ∈
        [("name", JValue.arr [JValue.s "Bob"])]
      exact List.mem_singleton.mpr rfl)

theorem process_elem_step (B : Nat) (axis_path ignore_list : List String)
    (st : LoopState) (e : StreamElem) :
    (process_elem B axis_path ignore_list st e).inserts.flatten ++
        (process_elem B axis_path ignore_list st e).records_batch =
      (st.inserts.flatten ++ st.records_batch) ++
        (if is_matching_repeating_element axis_path e.lineage then
          branch_record e.tree ignore_list else none).toList ∧
    (process_elem B axis_path ignore_list st e).count =
      st.count +
        (if is_matching_repeating_element axis_path e.lineage then
          branch_record e.tree ignore_list else none).toList.length ∧
    (process_elem B axis_path ignore_list st e).cleared =
      st.cleared ++ [elemAccepted axis_path ignore_list e] := by
  unfold process_elem
  by_cases hm : is_matching_repeating_element axis_path e.lineage = true
  · rw [if_pos hm, if_pos hm]
    by_cases ht : jtruthy
        (recurse_element_descending e.tree ignore_list 1) = true
    · simp only [ht, if_true]
      rw [show branch_record e.tree ignore_list =
        some (if isDict (recurse_element_descending e.tree ignore_list 1)
          then recurse_element_descending e.tree ignore_list 1
          else JValue.obj
            [("val", recurse_element_descending e.tree ignore_list 1)])
        from by rw [branch_record]; simp [ht]]
      refine ⟨?_, ?_, ?_⟩
      · by_cases hf : (st.count % B == 0) = true
        · simp [hf, List.flatten_append]
        · simp only [Bool.not_eq_true] at hf
          simp [hf]
      · simp
      · simp [elemAccepted, hm, ht]
    · have htf : jtruthy
          (recurse_element_descending e.tree ignore_list 1) = false := by
        simpa using ht
      have hbr : branch_record e.tree ignore_list = none := by
        rw [branch_record]
        simp [htf]
      simp [htf, hbr, elemAccepted, hm]
  · have hmf : is_matching_repeating_element axis_path e.lineage = false := by
      simpa using hm
    rw [if_neg hm, if_neg hm]
    simp [elemAccepted, hmf]

theorem foldl_process_elem_content (stream : List StreamElem) :
    ∀ (B : Nat) (axis_path ignore_list : List String) (st : LoopState),
      (stream.foldl (process_elem B axis_path ignore_list) st).inserts.flatten
          ++ (stream.foldl
            (process_elem B axis_path ignore_list) st).records_batch =
        (st.inserts.flatten ++ st.records_batch) ++
          acceptedDocs axis_path ignore_list stream ∧
      (stream.foldl (process_elem B axis_path ignore_list) st).count =
        st.count + (acceptedDocs axis_path ignore_list stream).length ∧
      (stream.foldl (process_elem B axis_path ignore_list) st).cleared =
        st.cleared ++ stream.map (elemAccepted axis_path ignore_list) := by
  induction stream with
  | nil =>
    intro B axis_path ignore_list st
    simp [acceptedDocs]
  | cons e rest ih =>
    intro B axis_path ignore_list st
    rw [List.foldl_cons]
    obtain ⟨h1, h2, h3⟩ := process_elem_step B axis_path ignore_list st e
    obtain ⟨g1, g2, g3⟩ := ih B axis_path ignore_list
      (process_elem B axis_path ignore_list st e)
    have hacc : acceptedDocs axis_path ignore_list (e :: rest) =
        (if is_matching_repeating_element axis_path e.lineage then
          branch_record e.tree ignore_list else none).toList ++
          acceptedDocs axis_path ignore_list rest := by
      rw [acceptedDocs, List.filterMap_cons]
      cases hbr : (if is_matching_repeating_element axis_path e.lineage then
          branch_record e.tree ignore_list else none) with
      | none => simp [acceptedDocs]
      | some d => simp [acceptedDocs]
    refine ⟨?_, ?_, ?_⟩
    · rw [g1, h1, hacc, List.append_assoc]
    · rw [g2, h2, hacc]
      simp [Nat.add_assoc]
    · rw [g3, h3, List.map_cons, List.append_assoc]
      rfl

/-- C9: the concatenation, in order, of all batches passed to
`insert_many` - including the final partial batch - equals the full ordered
sequence of documents accepted by the pipeline: nothing is lost, duplicated
or reordered. -/
theorem C9_flushed_batches_concatenation (B : Nat)
    (axis_path ignore_list : List String) (stream : List StreamElem) :
    (insert_array_elements_into_db B axis_path ignore_list
        stream).inserts.flatten =
      acceptedDocs axis_path ignore_list stream := by
  unfold insert_array_elements_into_db
  obtain ⟨h1, -, -⟩ := foldl_process_elem_content stream B axis_path
    ignore_list ⟨0, [], [], []⟩
  by_cases hemp : (stream.foldl
      (process_elem B axis_path ignore_list)
      ⟨0, [], [], []⟩).records_batch.isEmpty = true
  · rw [if_pos hemp]
    have h0 := List.isEmpty_iff.mp hemp
    rw [h0, List.append_nil] at h1
    simpa using h1
  · rw [if_neg hemp]
    simp only [List.flatten_append, List.flatten_cons, List.flatten_nil,
      List.append_nil]
    simpa using h1

/-- C2 as amended: `elem.clear()` runs for a fired element exactly when the
element matched the axis path and its translation was truthy; a fired
element failing either test is not cleared. -/
theorem C2_amended_clear_only_on_accept (B : Nat)
    (axis_path ignore_list : List String) (stream : List StreamElem) :
    (insert_array_elements_into_db B axis_path ignore_list stream).cleared =
      stream.map (elemAccepted axis_path ignore_list) := by
  unfold insert_array_elements_into_db
  obtain ⟨-, -, h3⟩ := foldl_process_elem_content stream B axis_path
    ignore_list ⟨0, [], [], []⟩
  by_cases hemp : (stream.foldl
      (process_elem B axis_path ignore_list)
      ⟨0, [], [], []⟩).records_batch.isEmpty = true
  · rw [if_pos hemp]
    simpa using h3
  · rw [if_neg hemp]
    simpa using h3

/-- Counterexample for C2 as stated: a fired element whose ancestry does not
match the axis path (an `ITEM` under `OTHER/ITEMS`) is yielded by the stream
walker but `elem.clear()` is never executed for it, so it is false that
every yielded element's subtree is cleared. -/
theorem C2_counterexample :
    (insert_array_elements_into_db 1000 ["ROOT", "ITEMS", "ITEM"] []
      [⟨Element.mk "ITEM" [] "x" [], ["ITEMS", "OTHER"]⟩]).cleared =
      [false] := by rfl


theorem process_elem_batchinv (B : Nat) (axis_path ignore_list : List String)
    (st : LoopState) (e : StreamElem) (hB : 0 < B) (h : BatchInv B st) :
    BatchInv B (process_elem B axis_path ignore_list st e) := by
  unfold process_elem
  by_cases hm : is_matching_repeating_element axis_path e.lineage = true
  · rw [if_pos hm]
    by_cases ht : jtruthy
        (recurse_element_descending e.tree ignore_list 1) = true
    · simp only [ht, if_true]
      rcases h with ⟨h0, hi, hb⟩ | ⟨kq, r, hr, hc, hi, hb⟩
      · have hflush : (st.count % B == 0) = true := by
          rw [h0]
          simp
        simp only [hflush, if_true]
        refine Or.inr ⟨0, 0, by omega, ?_, ?_, ?_⟩
        · show st.count + 1 = 1 + 0 * B + 0
          omega
        · show (st.inserts ++ [st.records_batch ++ _]).map List.length =
            1 :: List.replicate 0 B
          rw [hi, hb]
          simp
        · show (List.length [] = 0)
          rfl
      · by_cases hrB : r + 1 = B
        · have hceq : st.count = (kq + 1) * B := by
            rw [hc, Nat.succ_mul, ← hrB]
            omega
          have hflush : (st.count % B == 0) = true := by
            rw [hceq, Nat.mul_mod_left]
            rfl
          simp only [hflush, if_true]
          refine Or.inr ⟨kq + 1, 0, by omega, ?_, ?_, ?_⟩
          · show st.count + 1 = 1 + (kq + 1) * B + 0
            rw [hceq]
            ring
          · show (st.inserts ++ [st.records_batch ++ _]).map List.length =
              1 :: List.replicate (kq + 1) B
            rw [List.map_append, hi, List.replicate_succ' kq B]
            simp [hb, hrB]
          · show (List.length [] = 0)
            rfl
        · have hmod : st.count % B = r + 1 := by
            rw [hc]
            have hre : 1 + kq * B + r = (r + 1) + kq * B := by omega
            rw [hre, Nat.add_mul_mod_self_right]
            exact Nat.mod_eq_of_lt (by omega)
          have hflush : (st.count % B == 0) = false := by
            rw [hmod]
            simp
          simp only [hflush, Bool.false_eq_true, if_false]
          refine Or.inr ⟨kq, r + 1, by omega, ?_, ?_, ?_⟩
          · show st.count + 1 = 1 + kq * B + (r + 1)
            omega
          · show st.inserts.map List.length = 1 :: List.replicate kq B
            exact hi
          · show (st.records_batch ++ _).length = r + 1
            simp [hb]
    · simp only [ht, Bool.false_eq_true, if_false]
      exact h
  · rw [if_neg hm]
    exact h

theorem foldl_process_elem_batchinv (stream : List StreamElem) :
    ∀ (B : Nat) (axis_path ignore_list : List String) (st : LoopState),
      0 < B → BatchInv B st →
      BatchInv B
        (stream.foldl (process_elem B axis_path ignore_list) st) := by
  induction stream with
  | nil =>
    intro B axis_path ignore_list st hB h
    exact h
  | cons e rest ih =>
    intro B axis_path ignore_list st hB h
    rw [List.foldl_cons]
    exact ih B axis_path ignore_list _ hB
      (process_elem_batchinv B axis_path ignore_list st e hB h)

theorem run_insert_sizes (B : Nat) (axis_path ignore_list : List String)
    (stream : List StreamElem) (hB : 0 < B)
    (hT : 1 ≤ (insert_array_elements_into_db B axis_path ignore_list
      stream).count) :
    (insert_array_elements_into_db B axis_path ignore_list
        stream).inserts.map List.length =
      1 :: (List.replicate
          (((insert_array_elements_into_db B axis_path ignore_list
            stream).count - 1) / B) B ++
        (if ((insert_array_elements_into_db B axis_path ignore_list
            stream).count - 1) % B = 0 then []
         else [((insert_array_elements_into_db B axis_path ignore_list
            stream).count - 1) % B])) := by
  have hinv := foldl_process_elem_batchinv stream B axis_path ignore_list
    ⟨0, [], [], []⟩ hB (Or.inl ⟨rfl, rfl, rfl⟩)
  simp only [insert_array_elements_into_db] at hT ⊢
  set st0 := stream.foldl (process_elem B axis_path ignore_list)
    ⟨0, [], [], []⟩ with hst0
  rcases hinv with ⟨h0, hi, hb⟩ | ⟨kq, r, hr, hc, hi, hb⟩
  · rw [hb] at hT
    simp only [List.isEmpty_nil, if_true] at hT
    rw [h0] at hT
    omega
  · have hc1 : st0.count - 1 = B * kq + r := by
      rw [hc, Nat.mul_comm]
      omega
    have hdiv : (st0.count - 1) / B = kq := by
      rw [hc1, Nat.mul_add_div hB, Nat.div_eq_of_lt (by omega)]
      omega
    have hmod : (st0.count - 1) % B = r := by
      rw [hc1, Nat.mul_add_mod]
      exact Nat.mod_eq_of_lt (by omega)
    by_cases hr0 : r = 0
    · have hbnil : st0.records_batch = [] := by
        rw [← List.length_eq_zero]
        omega
      rw [hbnil]
      simp only [List.isEmpty_nil, if_true]
      rw [hi, hdiv, hmod, hr0]
      simp
    · have hbne : st0.records_batch.isEmpty = false := by
        cases hcase : st0.records_batch with
        | nil =>
          rw [hcase] at hb
          simp at hb
          omega
        | cons x xs => rfl
      rw [hbne]
      simp only [Bool.false_eq_true, if_false]
      show (st0.inserts ++ [st0.records_batch]).map List.length = _
      rw [List.map_append, hi, hdiv, hmod, if_neg hr0]
      simp [hb]

theorem run_inserts_nil_of_count_zero (B : Nat)
    (axis_path ignore_list : List String) (stream : List StreamElem)
    (hB : 0 < B)
    (hT : (insert_array_elements_into_db B axis_path ignore_list
      stream).count = 0) :
    (insert_array_elements_into_db B axis_path ignore_list
      stream).inserts = [] := by
  have hinv := foldl_process_elem_batchinv stream B axis_path ignore_list
    ⟨0, [], [], []⟩ hB (Or.inl ⟨rfl, rfl, rfl⟩)
  simp only [insert_array_elements_into_db] at hT ⊢
  set st0 := stream.foldl (process_elem B axis_path ignore_list)
    ⟨0, [], [], []⟩ with hst0
  rcases hinv with ⟨h0, hi, hb⟩ | ⟨kq, r, hr, hc, hi, hb⟩
  · rw [hb]
    simp [hi]
  · exfalso
    by_cases hbe : st0.records_batch.isEmpty = true
    · rw [if_pos hbe] at hT
      omega
    · rw [if_neg hbe] at hT
      have hT2 : st0.count = 0 := hT
      omega

/-- C10: in every run with `0 < B` that accepts at least one document, the
first insert call carries exactly one document (the pre-increment modulus
check fires on count 0), every intermediate call carries exactly `B`
documents, and the final flush, performed only when documents remain
pending, carries the remaining `(T - 1) mod B` documents. -/
theorem C10_first_and_intermediate_batch_sizes (B : Nat)
    (axis_path ignore_list : List String) (stream : List StreamElem)
    (hB : 0 < B)
    (hT : 1 ≤ (insert_array_elements_into_db B axis_path ignore_list
      stream).count) :
    (insert_array_elements_into_db B axis_path ignore_list
        stream).inserts.map List.length =
      1 :: (List.replicate
          (((insert_array_elements_into_db B axis_path ignore_list
            stream).count - 1) / B) B ++
        (if ((insert_array_elements_into_db B axis_path ignore_list
            stream).count - 1) % B = 0 then []
         else [((insert_array_elements_into_db B axis_path ignore_list
            stream).count - 1) % B])) :=
  run_insert_sizes B axis_path ignore_list stream hB hT

/-- Witness for C10: batch size 2, four accepted documents; the insert
calls carry 1, 2 and 1 documents. -/
theorem C10_witness :
    0 < 2 ∧
    1 ≤ (insert_array_elements_into_db 2 ["DATA", "ITEMS", "ITEM"] []
      [⟨Element.mk "ITEM" [] "a" [], ["ITEMS", "DATA"]⟩,
       ⟨Element.mk "ITEM" [] "b" [], ["ITEMS", "DATA"]⟩,
       ⟨Element.mk "ITEM" [] "c" [], ["ITEMS", "DATA"]⟩,
       ⟨Element.mk "ITEM" [] "d" [], ["ITEMS", "DATA"]⟩]).count ∧
    (insert_array_elements_into_db 2 ["DATA", "ITEMS", "ITEM"] []
      [⟨Element.mk "ITEM" [] "a" [], ["ITEMS", "DATA"]⟩,
       ⟨Element.mk "ITEM" [] "b" [], ["ITEMS", "DATA"]⟩,
       ⟨Element.mk "ITEM" [] "c" [], ["ITEMS", "DATA"]⟩,
       ⟨Element.mk "ITEM" [] "d" [], ["ITEMS", "DATA"]⟩]).inserts.map
        List.length =
      1 :: (List.replicate
          (((insert_array_elements_into_db 2 ["DATA", "ITEMS", "ITEM"] []
            [⟨Element.mk "ITEM" [] "a" [], ["ITEMS", "DATA"]⟩,
             ⟨Element.mk "ITEM" [] "b" [], ["ITEMS", "DATA"]⟩,
             ⟨Element.mk "ITEM" [] "c" [], ["ITEMS", "DATA"]⟩,
             ⟨Element.mk "ITEM" [] "d" [], ["ITEMS", "DATA"]⟩]).count - 1)
            / 2) 2 ++
        (if ((insert_array_elements_into_db 2 ["DATA", "ITEMS", "ITEM"] []
            [⟨Element.mk "ITEM" [] "a" [], ["ITEMS", "DATA"]⟩,
             ⟨Element.mk "ITEM" [] "b" [], ["ITEMS", "DATA"]⟩,
             ⟨Element.mk "ITEM" [] "c" [], ["ITEMS", "DATA"]⟩,
             ⟨Element.mk "ITEM" [] "d" [], ["ITEMS", "DATA"]⟩]).count - 1)
            % 2 = 0 then []
         else [((insert_array_elements_into_db 2 ["DATA", "ITEMS", "ITEM"] []
            [⟨Element.mk "ITEM" [] "a" [], ["ITEMS", "DATA"]⟩,
             ⟨Element.mk "ITEM" [] "b" [], ["ITEMS", "DATA"]⟩,
             ⟨Element.mk "ITEM" [] "c" [], ["ITEMS", "DATA"]⟩,
             ⟨Element.mk "ITEM" [] "d" [], ["ITEMS", "DATA"]⟩]).count - 1)
            % 2])) :=
  ⟨by decide, by decide,
    C10_first_and_intermediate_batch_sizes 2 ["DATA", "ITEMS", "ITEM"] []
      [⟨Element.mk "ITEM" [] "a" [], ["ITEMS", "DATA"]⟩,
       ⟨Element.mk "ITEM" [] "b" [], ["ITEMS", "DATA"]⟩,
       ⟨Element.mk "ITEM" [] "c" [], ["ITEMS", "DATA"]⟩,
       ⟨Element.mk "ITEM" [] "d" [], ["ITEMS", "DATA"]⟩]
      (by decide) (by decide)⟩

theorem natCeilDiv_mul_add (B kq r : Nat) (hB : 0 < B) (hr : r < B) :
    natCeilDiv (B * kq + r) B = kq + (if r = 0 then 0 else 1) := by
  unfold natCeilDiv
  by_cases h : r = 0
  · rw [if_pos h]
    have he : B * kq + r + B - 1 = B * kq + (B - 1) := by omega
    rw [he, Nat.mul_add_div hB, Nat.div_eq_of_lt (by omega)]
  · rw [if_neg h]
    have he : B * kq + r + B - 1 = B * (kq + 1) + (r - 1) := by
      rw [Nat.mul_succ]
      omega
    rw [he, Nat.mul_add_div hB, Nat.div_eq_of_lt (by omega)]

/-- C1 as amended: with batch size `0 < B`, a run accepting `T` documents
makes `ceil((T - 1) / B) + 1` bulk-insert calls when `T` is at least 1, and
none when `T = 0`.  (The claimed `ceil(T / B)` is off by one for most `T`
because the modulus check uses the pre-increment counter, flushing the very
first document on its own.) -/
theorem C1_amended_flush_count (B : Nat)
    (axis_path ignore_list : List String) (stream : List StreamElem)
    (hB : 0 < B) :
    (insert_array_elements_into_db B axis_path ignore_list
        stream).inserts.length =
      if (insert_array_elements_into_db B axis_path ignore_list
          stream).count = 0 then 0
      else natCeilDiv ((insert_array_elements_into_db B axis_path
        ignore_list stream).count - 1) B + 1 := by
  by_cases hT0 : (insert_array_elements_into_db B axis_path ignore_list
      stream).count = 0
  · rw [if_pos hT0,
      run_inserts_nil_of_count_zero B axis_path ignore_list stream hB hT0]
    rfl
  · rw [if_neg hT0]
    have hT : 1 ≤ (insert_array_elements_into_db B axis_path ignore_list
        stream).count := by omega
    have hs := run_insert_sizes B axis_path ignore_list stream hB hT
    have hlen : (insert_array_elements_into_db B axis_path ignore_list
        stream).inserts.length =
        ((insert_array_elements_into_db B axis_path ignore_list
          stream).inserts.map List.length).length := by
      rw [List.length_map]
    rw [hlen, hs]
    have hq := (Nat.div_add_mod ((insert_array_elements_into_db B axis_path
      ignore_list stream).count - 1) B).symm
    have hrlt : ((insert_array_elements_into_db B axis_path ignore_list
        stream).count - 1) % B < B :=
      Nat.mod_lt _ hB
    have hceil := natCeilDiv_mul_add B
      (((insert_array_elements_into_db B axis_path ignore_list
        stream).count - 1) / B)
      (((insert_array_elements_into_db B axis_path ignore_list
        stream).count - 1) % B) hB hrlt
    rw [← hq] at hceil
    rw [hceil]
    by_cases hm : ((insert_array_elements_into_db B axis_path ignore_list
        stream).count - 1) % B = 0
    · rw [if_pos hm, if_pos hm]
      simp
    · rw [if_neg hm, if_neg hm]
      simp

/-- Counterexample for C1 as stated: with the source batch size 1000 and a
run accepting `T = 2` documents, the code makes 2 bulk-insert calls (the
first document is flushed alone, the second in the end-of-stream flush)
while `ceil(T / B) = 1`. -/
theorem C1_counterexample :
    (insert_array_elements_into_db MDB_BATCH_INSERT_SIZE
        ["DATA", "ITEMS", "ITEM"] []
        [⟨Element.mk "ITEM" [] "x" [], ["ITEMS", "DATA"]⟩,
         ⟨Element.mk "ITEM" [] "y" [], ["ITEMS", "DATA"]⟩]).count = 2 ∧
    (insert_array_elements_into_db MDB_BATCH_INSERT_SIZE
        ["DATA", "ITEMS", "ITEM"] []
        [⟨Element.mk "ITEM" [] "x" [], ["ITEMS", "DATA"]⟩,
         ⟨Element.mk "ITEM" [] "y" [], ["ITEMS", "DATA"]⟩]).inserts.length
      = 2 ∧
    natCeilDiv 2 MDB_BATCH_INSERT_SIZE = 1 ∧
    (insert_array_elements_into_db MDB_BATCH_INSERT_SIZE
        ["DATA", "ITEMS", "ITEM"] []
        [⟨Element.mk "ITEM" [] "x" [], ["ITEMS", "DATA"]⟩,
         ⟨Element.mk "ITEM" [] "y" [], ["ITEMS", "DATA"]⟩]).inserts.length
      ≠ natCeilDiv
        (insert_array_elements_into_db MDB_BATCH_INSERT_SIZE
          ["DATA", "ITEMS", "ITEM"] []
          [⟨Element.mk "ITEM" [] "x" [], ["ITEMS", "DATA"]⟩,
           ⟨Element.mk "ITEM" [] "y" [], ["ITEMS", "DATA"]⟩]).count
        MDB_BATCH_INSERT_SIZE :=
  ⟨by rfl, by rfl, by rfl, by decide⟩

/-- Witness for C1 (amended) at batch size 1000 and a two-document run. -/
theorem C1_witness :
    0 < MDB_BATCH_INSERT_SIZE ∧
    (insert_array_elements_into_db MDB_BATCH_INSERT_SIZE
        ["DATA", "ITEMS", "ITEM"] []
        [⟨Element.mk "ITEM" [] "p" [], ["ITEMS", "DATA"]⟩,
         ⟨Element.mk "ITEM" [] "q" [], ["ITEMS", "DATA"]⟩]).inserts.length =
      if (insert_array_elements_into_db MDB_BATCH_INSERT_SIZE
          ["DATA", "ITEMS", "ITEM"] []
          [⟨Element.mk "ITEM" [] "p" [], ["ITEMS", "DATA"]⟩,
           ⟨Element.mk "ITEM" [] "q" [], ["ITEMS", "DATA"]⟩]).count = 0
      then 0
      else natCeilDiv ((insert_array_elements_into_db MDB_BATCH_INSERT_SIZE
          ["DATA", "ITEMS", "ITEM"] []
          [⟨Element.mk "ITEM" [] "p" [], ["ITEMS", "DATA"]⟩,
           ⟨Element.mk "ITEM" [] "q" [], ["ITEMS", "DATA"]⟩]).count - 1)
        MDB_BATCH_INSERT_SIZE + 1 :=
  ⟨by decide,
    C1_amended_flush_count MDB_BATCH_INSERT_SIZE ["DATA", "ITEMS", "ITEM"]
      [] [⟨Element.mk "ITEM" [] "p" [], ["ITEMS", "DATA"]⟩,
          ⟨Element.mk "ITEM" [] "q" [], ["ITEMS", "DATA"]⟩] (by decide)⟩
